import Mathlib

set_option maxHeartbeats 1000000

/-!
Shallow embedding of the diff-to-spec extraction and version expansion
engine of `build_pr_changes.py`.

Python strings are modelled as `List Char`; a Python list of strings is a
`List (List Char)`.  Each definition carries a comment naming the source
construct it embeds.  The regular-expression searches of the source are
modelled by explicit leftmost-then-greedy scanning functions.
-/

/-- A Python string, modelled as its list of characters. -/
abbrev Str := List Char

/-- Leftmost occurrence of the literal `pat` inside `s`; returns the
remainder of `s` after that occurrence.  Models the scan of `re.search`
for a literal pattern, positioned just after the literal. -/
def searchAfter (pat : Str) : Str → Option Str
  | [] => if pat.isPrefixOf ([] : Str) then some ([] : Str) else none
  | c :: rest =>
    if pat.isPrefixOf (c :: rest) then some ((c :: rest).drop pat.length)
    else searchAfter pat rest

/-- Models `re.search(r"\+\+\+ b/(.*)", line)` from `get_specs_to_check`:
group(1) is everything after the first occurrence of `+++ b/`, up to the
end of the line (the regex `.` does not match a newline). -/
def search_changed_path (line : Str) : Option Str :=
  (searchAfter ("+++ b/".data) line).map (fun r => r.takeWhile (· ≠ '\n'))

/-- End position of a greedy group: the largest `j` with `minLen ≤ j`, the
closing-pattern test `ok` succeeding on `r.drop j`, and no newline inside
`r.take j`.  This is the backtracking of a greedy `(.+)` or `(.*)` group
followed by a closing pattern. -/
def lastCloseP (ok : Str → Bool) (minLen : Nat) (r : Str) : Option Nat :=
  (List.range (r.length + 1)).foldl
    (fun best j =>
      if minLen ≤ j ∧ ok (r.drop j) = true ∧ '\n' ∉ r.take j then some j
      else best)
    none

/-- Models `re.search` for a pattern of shape `open(.+)close` (or
`open(.*)close` with `minLen = 0`): try each start position left to right;
at the first occurrence of the literal `openPat` whose remainder admits a
closing match, return the greedy group. -/
def searchGroupP (openPat : Str) (ok : Str → Bool) (minLen : Nat) : Str → Option Str
  | [] => none
  | c :: rest =>
    if openPat.isPrefixOf (c :: rest) then
      match lastCloseP ok minLen ((c :: rest).drop openPat.length) with
      | some j => some (((c :: rest).drop openPat.length).take j)
      | none => searchGroupP openPat ok minLen rest
    else searchGroupP openPat ok minLen rest

/-- Models `re.search(r'version\("(.+)", ', line)`. -/
def search_version_decl (line : Str) : Option Str :=
  searchGroupP ("version(\"".data) (fun t => ("\", ".data).isPrefixOf t) 1 line

/-- Models `re.search(r'variant\("(.+)", ', line)`. -/
def search_variant (line : Str) : Option Str :=
  searchGroupP ("variant(\"".data) (fun t => ("\", ".data).isPrefixOf t) 1 line

/-- Models `re.search(r'"(.+)"', line)`. -/
def search_quoted (line : Str) : Option Str :=
  searchGroupP ("\"".data) (fun t => ("\"".data).isPrefixOf t) 1 line

/-- Closing test of the recipe-path pattern: `/package.py` where the `.`
is the regex wildcard (any character except a newline). -/
def recipeClose (t : Str) : Bool :=
  ("/package".data).isPrefixOf t &&
    (match t.drop 8 with
     | c :: _ => c ≠ '\n'
     | [] => false) &&
    ("py".data).isPrefixOf (t.drop 9)

/-- Models
`re.search(r"var/spack/repos/builtin/packages/(.*)/package.py", changed_file)`. -/
def search_recipe (changed_file : Str) : Option Str :=
  searchGroupP ("var/spack/repos/builtin/packages/".data) recipeClose 0 changed_file

/-- Models `re.search(r"version\($", line)`: the literal `version(` at the
end of the line (`$` also matches just before a final newline). -/
def version_start_match (line : Str) : Bool :=
  ("version(".data).isSuffixOf
    (if line.getLast? = some '\n' then line.dropLast else line)

/-- The local variables of `get_specs_to_check` that evolve while the diff
is scanned line by line. -/
structure ParseState where
  changed_files : List Str
  changed_recipe : Str
  recipe_paths : List Str
  recipes : List Str
  specs : List Str
  variants : List Str
  versions : List Str
  next_line_is_version : Bool
deriving DecidableEq

/-- The state at the start of `get_specs_to_check`. -/
def initState : ParseState :=
  { changed_files := [], changed_recipe := [], recipe_paths := [],
    recipes := [], specs := [], variants := [], versions := [],
    next_line_is_version := false }

/-- One iteration of the `for line in stdout.split("\n")` loop of
`get_specs_to_check`.  The `none` result models the `IndexError` that
Python raises at `line[0]` when `line` is empty. -/
def processLine (st : ParseState) (line : Str) : Option ParseState :=
  if ("diff --git".data).isPrefixOf line then
    some { st with changed_recipe := [], versions := [], variants := [],
                   next_line_is_version := false }
  else
    match line with
    | [] => none
    | c :: _ =>
      if c ≠ '+' then some st
      else
        match search_changed_path line with
        | some changed_file =>
          let st1 := { st with changed_files := st.changed_files ++ [changed_file] }
          match search_recipe changed_file with
          | some r =>
            some { st1 with recipe_paths := st1.recipe_paths ++ [changed_file],
                            changed_recipe := r,
                            recipes := st1.recipes ++ [r],
                            specs := st1.specs ++ [r] }
          | none => some st1
        | none =>
          if st.changed_recipe = [] then some st
          else if version_start_match line then
            some { st with next_line_is_version := true }
          else
            let version0 := search_version_decl line
            if st.next_line_is_version ∨ version0.isSome then
              match version0 <|> search_quoted line with
              | some v =>
                let spec := st.changed_recipe ++ '@' :: v
                let specs1 := if st.changed_recipe ∈ st.specs
                              then st.specs.erase st.changed_recipe else st.specs
                some { st with next_line_is_version := false,
                               specs := specs1 ++ [spec] }
              | none => some { st with next_line_is_version := false }
            else
              match search_variant line with
              | some var =>
                let variant_str := '+' :: var
                let specs1 := if st.changed_recipe ∈ st.specs
                              then st.specs.erase st.changed_recipe else st.specs
                let specs2 := specs1 ++ [st.changed_recipe ++ variant_str]
                let specs3 := specs2 ++ st.versions.map
                  (fun ver => st.changed_recipe ++ variant_str ++ '@' :: ver)
                some { st with variants := st.variants ++ [variant_str],
                               specs := specs3 }
              | none => some st

/-- The whole line loop of `get_specs_to_check`, over an explicit list of
lines. -/
def parseDiffLines (lines : List Str) : Option ParseState :=
  lines.foldlM processLine initState

/-- `get_specs_to_check`, parameterised by the text that the external
`gh pr diff` collaborator returned on stdout (the error/stderr exit path
of the source aborts the whole run before any parsing and is outside this
model).  `none` models the `IndexError` crash on an empty line. -/
def get_specs_to_check (stdout : Str) : Option (List Str) :=
  (parseDiffLines (stdout.splitOn '\n')).map (fun st => st.specs)

/-- Python `l[:n]` for an `int` bound `n` (a negative bound drops that
many elements from the end). -/
def pyTake (n : Int) (xs : List Str) : List Str :=
  if 0 ≤ n then xs.take n.toNat else xs.take (xs.length - (-n).toNat)

/-- Helper for `pySplitWS`, accumulating the current token reversed. -/
def pySplitWSAux (cur : Str) : Str → List Str
  | [] => if cur = [] then [] else [cur.reverse]
  | c :: rest =>
    if c.isWhitespace then
      if cur = [] then pySplitWSAux [] rest else cur.reverse :: pySplitWSAux [] rest
    else pySplitWSAux (c :: cur) rest

/-- Python `line.split()`: split on runs of whitespace, dropping empty
pieces. -/
def pySplitWS (s : Str) : List Str := pySplitWSAux [] s

/-- `get_safe_versions`, parameterised by the external collaborator: `run
recipe` stands for `run(["bin/spack", "versions", "--safe", recipe])` and
returns the (exit status, stdout) pair (stderr is unused by the source). -/
def get_safe_versions (run : Str → Int × Str) (spec : Str) : List Str :=
  let recipe := spec.takeWhile (· ≠ '+')
  let res := run recipe
  let safe0 : List Str :=
    if res.1 = 0 then
      (res.2.splitOn '\n').foldl
        (fun acc line =>
          if ("==> Safe versions".data).isPrefixOf line then acc
          else acc ++ pySplitWS line)
        []
    else []
  let safe1 := if "master".data ∈ safe0 then safe0.erase ("master".data) else safe0
  let safe2 := if "develop".data ∈ safe1 then safe1.erase ("develop".data) else safe1
  if "main".data ∈ safe2 then safe2.erase ("main".data) else safe2

/-- Loop body of `expand_specs_to_check_package_versions`: for one `spec`
of the snapshot, compute `recipe = spec.split("@")[0]`, query the safe
versions, and if any were returned remove the first occurrence of `spec`
(`list.remove`) and append up to `max_versions` expanded specs. -/
def expandStep (run : Str → Int × Str) (max_versions : Int)
    (acc : List Str) (spec : Str) : List Str :=
  let recipe := spec.takeWhile (· ≠ '@')
  let versions := get_safe_versions run recipe
  if versions = [] then acc
  else (acc.erase spec) ++ (pyTake max_versions versions).map (fun v => recipe ++ '@' :: v)

/-- `expand_specs_to_check_package_versions`: iterate over a snapshot of
the list (`specs_to_check.copy()`) while mutating the list itself, which
the fold models by threading the mutated list as the accumulator.
`list.remove` removes the first occurrence of its argument (the argument
is always present here, so `List.erase` is an exact model). -/
def expand_specs_to_check_package_versions (run : Str → Int × Str)
    (specs_to_check : List Str) (max_versions : Int) : List Str :=
  specs_to_check.foldl (expandStep run max_versions) specs_to_check

/-- The expander leaves `s` untouched exactly when the safe-version query
for the part of `s` before its `@` suffix comes back empty. -/
def expansionKeepsB (run : Str → Int × Str) (s : Str) : Bool :=
  (get_safe_versions run (s.takeWhile (· ≠ '@'))).isEmpty

/-- The expanded specs that replace `s` when the query returns versions:
up to `max_versions` entries `prefix@version`, where `prefix` is the part
of `s` before its `@` suffix, in the collaborator's returned order. -/
def expansionRepl (run : Str → Int × Str) (max_versions : Int) (s : Str) : List Str :=
  (pyTake max_versions (get_safe_versions run (s.takeWhile (· ≠ '@')))).map
    (fun v => s.takeWhile (· ≠ '@') ++ '@' :: v)

/-- A recipe name in the sense of the data model of the design: a
non-empty identifier that contains neither the version separator `@` nor
the variant separator `+`. -/
def Clean (r : Str) : Prop := r ≠ [] ∧ '@' ∉ r ∧ '+' ∉ r

instance : DecidablePred Clean := fun r => by unfold Clean; infer_instance

/-- `s` is a more specific spec for recipe `R`: `R@version` or
`R+variant...` in textual form. -/
def specificFor (R s : Str) : Prop := ∃ t, s = R ++ '@' :: t ∨ s = R ++ '+' :: t

/-- The recipe name (if any) that a single diff line makes the parser
capture: the line is an addition line matching the changed-path pattern,
whose path matches the recipe-file pattern.  This is exactly the condition
under which `get_specs_to_check` sets `changed_recipe` and appends a bare
spec. -/
def captureOf (line : Str) : Option Str :=
  if ("diff --git".data).isPrefixOf line then none
  else
    match line with
    | [] => none
    | c :: _ =>
      if c ≠ '+' then none
      else
        match search_changed_path line with
        | some changed_file => search_recipe changed_file
        | none => none

/-- All recipe names captured from a list of diff lines, in order. -/
def captures (lines : List Str) : List Str := lines.filterMap captureOf

/-- Provenance of a spec: `s` is the bare spec of a captured recipe `q`,
or `q` followed by a `@`- or `+`-separated suffix. -/
def specFrom (caps : List Str) (s : Str) : Prop :=
  ∃ q ∈ caps, s = q ∨ ∃ sep t, (sep = '@' ∨ sep = '+') ∧ s = q ++ sep :: t

/-- Parse invariant for the overriding-insert property of recipe `R`:
before `R` is captured (`false`), no bare or specific spec for `R` exists
and the current recipe is not `R`; after the single capture (`true`), the
bare entry occurs at most once and never together with a specific one. -/
def InvC3 (R : Str) (st : ParseState) : Bool → Prop
  | true => (st.changed_recipe = [] ∨ Clean st.changed_recipe) ∧
      st.specs.count R ≤ 1 ∧ ¬(R ∈ st.specs ∧ ∃ s ∈ st.specs, specificFor R s)
  | false => (st.changed_recipe = [] ∨ Clean st.changed_recipe) ∧
      st.changed_recipe ≠ R ∧ R ∉ st.specs ∧ ∀ s ∈ st.specs, ¬ specificFor R s

/-- Collaborator model for the C1 counterexample: every safe-version
query succeeds and reports the single safe version `2.0`. -/
def runC1 : Str → Int × Str := fun _ => (0, "2.0".data)

/-- Collaborator model for C7: the query succeeds and reports five safe
versions, the first being the development-channel label `master`. -/
def runC7 : Str → Int × Str :=
  fun _ => (0, "==> Safe versions (already checksummed):\nmaster  2.4.1  2.3  2.2  2.1".data)

/-- Collaborator model for the C6 witness: every query fails with a
non-zero exit status. -/
def runErr : Str → Int × Str := fun _ => (1, "unable to find package".data)

/-- Collaborator model for the C10 witness. -/
def runC10 : Str → Int × Str := fun _ => (0, "2.0 1.9".data)

/-- Diff text of the C4 scenario. -/
def diffC4 : Str :=
  "+++ b/var/spack/repos/builtin/packages/foo/package.py\n+    version(\"2.1\", sha256=\"...\")".data

/-- Diff text for C2: one recipe file block declaring two versions and
then two variants. -/
def diffC2 : Str :=
  ("diff --git a/f b/f\n+++ b/var/spack/repos/builtin/packages/foo/package.py\n" ++
   "+    version(\"1.0\", sha256=\"aaaa\")\n+    version(\"2.0\", sha256=\"bbbb\")\n" ++
   "+    variant(\"bar\", default=True)\n+    variant(\"baz\", default=False)").data

/-- Diff text for the C3 counterexample: the same recipe-file path marker
appears twice before a version line. -/
def diffC3 : Str :=
  ("+++ b/var/spack/repos/builtin/packages/foo/package.py\n" ++
   "+++ b/var/spack/repos/builtin/packages/foo/package.py\n" ++
   "+    version(\"2.1\", sha256=\"x\")").data

/-- Diff text for the C5 counterexample: a two-line version declaration
whose value line also carries a quoted checksum. -/
def diffC5 : Str :=
  ("+++ b/var/spack/repos/builtin/packages/foo/package.py\n" ++
   "+    version(\n+        \"2.1\", sha256=\"abc\"").data

/-- Diff text for C8: a diff whose second line is empty. -/
def diffC8 : Str :=
  "+++ b/var/spack/repos/builtin/packages/foo/package.py\n\n+    version(\"2.1\", sha256=\"x\")".data

/-- First diff of the C9 counterexample: it only touches the recipe file
of `foo`, producing the bare spec `foo`. -/
def diffC9a : Str := "+++ b/var/spack/repos/builtin/packages/foo/package.py".data

/-- Second diff of the C9 counterexample: the same recipe with two new
versions. -/
def diffC9b : Str :=
  ("+++ b/var/spack/repos/builtin/packages/foo/package.py\n" ++
   "+    version(\"1.0\", sha256=\"a\")\n+    version(\"2.0\", sha256=\"b\")").data

/-- The C9 concatenation: the two diffs joined with a file-boundary
marker starting the second. -/
def diffC9 : Str := diffC9a ++ '\n' :: ("diff --git a/f b/f\n".data) ++ diffC9b

/-- C4 (confirmed): the concrete scenario diff — the recipe-file path
marker for `foo` followed by the addition line
`    version("2.1", sha256="...")` — yields exactly the Spec Collection
`["foo@2.1"]`; the bare `foo` entry inserted on the path match is removed
when the version spec is appended. -/
theorem spec_c4_theorem : get_specs_to_check diffC4 = some ["foo@2.1".data] := by decide

/-- C2 (code_bug evaluation): on a diff block declaring two versions and
then two variants for recipe `foo`, the code returns only the two
version specs and the two variant specs — four specs, with none of the
four `foo+variant@version` combinations the design requires, because the
`versions` list of the parse context is never populated by the version
branch (its `append` is missing), so the variant branch's version loop is
dead code. -/
theorem spec_c2_eval :
    get_specs_to_check diffC2 =
      some ["foo@1.0".data, "foo@2.0".data, "foo+bar".data, "foo+baz".data] := by decide

/-- C3 (counterexample): a diff in which the recipe-file path marker of
`foo` appears twice inserts the bare spec `foo` twice, and the later
version line removes only the first copy, so the final Spec Collection
contains both the bare entry `foo` and the more specific entry `foo@2.1`
— the overriding-insert invariant fails on this input. -/
theorem spec_c3_counterexample :
    get_specs_to_check diffC3 = some ["foo".data, "foo@2.1".data] ∧
    "foo".data ∈ ["foo".data, "foo@2.1".data] ∧
    specificFor ("foo".data) ("foo@2.1".data) := by
  refine ⟨by decide, by decide, "2.1".data, Or.inl (by decide)⟩

/-- C5 (counterexample): with `awaiting_version_value` set, the value
line `+        "2.1", sha256="abc"` contains the quoted tokens `2.1` and
`abc`; the claim says the version extracted is the first quoted token
`2.1`, but the greedy regex `"(.+)"` captures everything between the
first and the last quote of the line, so the spec appended is
`foo@2.1", sha256="abc`, not `foo@2.1`. -/
theorem spec_c5_counterexample :
    get_specs_to_check diffC5 = some [("foo@2.1\", sha256=\"abc").data] ∧
    get_specs_to_check diffC5 ≠ some ["foo@2.1".data] := ⟨by decide, by decide⟩

/-- C8 (code_bug evaluation): on a diff text containing an empty line the
extractor does not silently skip the line — `line[0]` raises `IndexError`
(modelled as `none`), so extraction fails on line content, contrary to
the claim that the parser is total and permissive. -/
theorem spec_c8_eval : get_specs_to_check diffC8 = none := by decide

/-- C9 (counterexample): the first diff alone yields `["foo"]` and the
second alone yields `["foo@1.0", "foo@2.0"]`, but parsing their
concatenation (with a file-boundary marker starting the second) yields
only `["foo@1.0", "foo@2.0"]` — the bare spec `foo` contributed by the
first diff is missing from the result, which is therefore not the union
of the two individual spec sets. -/
theorem spec_c9_counterexample :
    get_specs_to_check diffC9a = some ["foo".data] ∧
    get_specs_to_check diffC9b = some ["foo@1.0".data, "foo@2.0".data] ∧
    get_specs_to_check diffC9 = some ["foo@1.0".data, "foo@2.0".data] ∧
    "foo".data ∉ ["foo@1.0".data, "foo@2.0".data] :=
  ⟨by decide, by decide, by decide, by decide⟩

/-- C7 (confirmed): with `maxVersions = 3` and the collaborator returning
five safe versions of which one is the development-channel label
`master`, the label is filtered out before truncation and the expander
produces exactly three `recipe@version` specs, in the collaborator's
returned order. -/
theorem spec_c7_theorem :
    get_safe_versions runC7 ("wget".data) =
      ["2.4.1".data, "2.3".data, "2.2".data, "2.1".data] ∧
    expand_specs_to_check_package_versions runC7 ["wget".data] 3 =
      ["wget@2.4.1".data, "wget@2.3".data, "wget@2.2".data] := ⟨by decide, by decide⟩

/-- C1 (counterexample): the spec `foo@1.0` carries an `@version` suffix,
yet the expander does not leave it unchanged: it strips the suffix,
queries the collaborator for `foo`, and replaces the spec with the
returned safe version, producing `["foo@2.0"]`. -/
theorem spec_c1_counterexample :
    expand_specs_to_check_package_versions runC1 ["foo@1.0".data] 6 = ["foo@2.0".data] ∧
    expand_specs_to_check_package_versions runC1 ["foo@1.0".data] 6 ≠ ["foo@1.0".data] :=
  ⟨by decide, by decide⟩

/-- A `takeWhile (· ≠ c)` never keeps the character `c` itself. -/
theorem not_mem_takeWhile_ne (c : Char) (x : Str) : c ∉ x.takeWhile (· ≠ c) :=
  fun h => by simpa using List.mem_takeWhile_imp h

/-- If `c` does not occur in `x`, `takeWhile (· ≠ c)` keeps all of `x`. -/
theorem takeWhile_ne_eq_self {c : Char} {x : Str} (h : c ∉ x) : x.takeWhile (· ≠ c) = x :=
  List.takeWhile_eq_self_iff.mpr (fun a ha => by
    simp only [ne_eq, decide_eq_true_eq]
    exact fun hc => h (hc ▸ ha))

/-- Splitting at the first occurrence of `c`: if `c` does not occur in
`x`, the prefix of `x ++ c :: v` before the first `c` is exactly `x`. -/
theorem takeWhile_ne_append {c : Char} {x : Str} (v : Str) (h : c ∉ x) :
    (x ++ c :: v).takeWhile (· ≠ c) = x := by
  rw [List.takeWhile_append_of_pos (fun a ha => by
    simp only [ne_eq, decide_eq_true_eq]
    exact fun hc => h (hc ▸ ha))]
  simp [List.takeWhile_cons]

/-- A step of the expander leaves the accumulator unchanged when the
safe-version query for the spec's prefix comes back empty. -/
theorem expandStep_keep (run : Str → Int × Str) (max_versions : Int) (acc : List Str)
    (s : Str) (h : expansionKeepsB run s = true) : expandStep run max_versions acc s = acc := by
  have h' : get_safe_versions run (s.takeWhile (· ≠ '@')) = [] := by
    simpa [expansionKeepsB, List.isEmpty_iff] using h
  simp only [expandStep]
  rw [h']
  simp

/-- A step of the expander removes the first occurrence of the spec and
appends its replacement block when the query returns versions. -/
theorem expandStep_repl (run : Str → Int × Str) (max_versions : Int) (acc : List Str)
    (s : Str) (h : expansionKeepsB run s = false) :
    expandStep run max_versions acc s = acc.erase s ++ expansionRepl run max_versions s := by
  have h' : ¬ get_safe_versions run (s.takeWhile (· ≠ '@')) = [] := by
    simpa [expansionKeepsB, List.isEmpty_iff] using h
  simp only [expandStep, expansionRepl]
  rw [if_neg h']

/-- Invariant of the expander loop: processing the remaining snapshot
entries `rest` over an accumulator of shape `kept ++ rest ++ app` keeps
the untouched entries in place, in order, and appends the replacement
blocks at the end in processing order. -/
theorem expand_fold_chr (run : Str → Int × Str) (max_versions : Int) :
    ∀ (rest kept app : List Str), (∀ s ∈ rest, s ∉ kept) → rest.Nodup →
    rest.foldl (expandStep run max_versions) (kept ++ rest ++ app) =
      kept ++ rest.filter (expansionKeepsB run) ++ app ++
        (rest.filter (fun s => !expansionKeepsB run s)).flatMap (expansionRepl run max_versions) := by
  intro rest
  induction rest with
  | nil => intro kept app _ _; simp
  | cons x t ih =>
    intro kept app h1 h2
    rw [List.foldl_cons]
    cases hk : expansionKeepsB run x with
    | true =>
      rw [expandStep_keep run max_versions _ x hk]
      have step : kept ++ (x :: t) ++ app = (kept ++ [x]) ++ t ++ app := by simp
      rw [step]
      rw [ih (kept ++ [x]) app
        (fun s hs => by
          simp only [List.mem_append, List.mem_singleton]
          push_neg
          exact ⟨h1 s (List.mem_cons_of_mem _ hs), fun he => (List.nodup_cons.mp h2).1 (he ▸ hs)⟩)
        (List.nodup_cons.mp h2).2]
      simp [List.filter_cons, hk]
    | false =>
      rw [expandStep_repl run max_versions _ x hk]
      have hnk : x ∉ kept := h1 x (List.mem_cons_self _ _)
      have step : (kept ++ (x :: t) ++ app).erase x ++ expansionRepl run max_versions x
          = kept ++ t ++ (app ++ expansionRepl run max_versions x) := by
        rw [List.append_assoc, List.erase_append_right _ hnk]
        simp [List.erase_cons_head]
      rw [step]
      rw [ih kept (app ++ expansionRepl run max_versions x)
        (fun s hs => h1 s (List.mem_cons_of_mem _ hs)) (List.nodup_cons.mp h2).2]
      simp [List.filter_cons, hk]

/-- C1 (amended): the expander processes every spec of the collection
uniformly, whether or not it carries an `@version` suffix: it queries the
collaborator for the spec's prefix before the first `@` (inside the query
the prefix before the first `+`), leaves the spec in place exactly when
the query returns no versions, and otherwise removes the spec — bare or
versioned — and appends up to `maxVersions` `prefix@version` specs in the
collaborator's returned order.  For a duplicate-free collection the
result is exactly the kept specs in their original order followed by the
replacement blocks in processing order. -/
theorem spec_c1_amended (run : Str → Int × Str) (specs : List Str) (max_versions : Int)
    (h : specs.Nodup) :
    expand_specs_to_check_package_versions run specs max_versions =
      specs.filter (expansionKeepsB run) ++
        (specs.filter (fun s => !expansionKeepsB run s)).flatMap (expansionRepl run max_versions) := by
  have hc := expand_fold_chr run max_versions specs [] [] (by simp) h
  simpa [expand_specs_to_check_package_versions] using hc

/-- C1 witness: the amended characterization evaluated on a concrete
duplicate-free collection, one bare and one versioned spec, with a
collaborator that always reports the safe version `2.0`. -/
theorem spec_c1_witness :
    (expand_specs_to_check_package_versions runC1 ["foo@1.0".data, "bar".data] 6 =
      ["foo@1.0".data, "bar".data].filter (expansionKeepsB runC1) ++
        (["foo@1.0".data, "bar".data].filter (fun s => !expansionKeepsB runC1 s)).flatMap
          (expansionRepl runC1 6)) ∧
    expand_specs_to_check_package_versions runC1 ["foo@1.0".data, "bar".data] 6 =
      ["foo@2.0".data, "bar@2.0".data] :=
  ⟨spec_c1_amended runC1 ["foo@1.0".data, "bar".data] 6 (by decide), by decide⟩

/-- No replacement spec produced for an entry `x` that the expander does
rewrite can collide with a spec `s` whose own query came back empty. -/
theorem expansionRepl_not_mem (run : Str → Int × Str) (max_versions : Int) (x s : Str)
    (hv : get_safe_versions run (s.takeWhile (· ≠ '@')) = [])
    (hx : expansionKeepsB run x = false) : s ∉ expansionRepl run max_versions x := by
  intro hmem
  simp only [expansionRepl, List.mem_map] at hmem
  obtain ⟨v, _, hveq⟩ := hmem
  have heq : s.takeWhile (· ≠ '@') = x.takeWhile (· ≠ '@') := by
    rw [← hveq, takeWhile_ne_append v (not_mem_takeWhile_ne '@' x)]
  rw [heq] at hv
  have hx2 : ¬ get_safe_versions run (x.takeWhile (· ≠ '@')) = [] := by
    simpa [expansionKeepsB, List.isEmpty_iff] using hx
  exact hx2 hv

/-- The expander loop never changes the multiplicity of a spec whose
safe-version query comes back empty. -/
theorem expand_count_const (run : Str → Int × Str) (max_versions : Int) (s : Str)
    (hv : get_safe_versions run (s.takeWhile (· ≠ '@')) = []) :
    ∀ (rest acc : List Str),
      (rest.foldl (expandStep run max_versions) acc).count s = acc.count s := by
  intro rest
  induction rest with
  | nil => intro acc; rfl
  | cons x t ih =>
    intro acc
    rw [List.foldl_cons, ih]
    cases hk : expansionKeepsB run x with
    | true => rw [expandStep_keep run max_versions acc x hk]
    | false =>
      rw [expandStep_repl run max_versions acc x hk]
      have hxs : s ≠ x := by
        intro he
        have hx2 : ¬ get_safe_versions run (x.takeWhile (· ≠ '@')) = [] := by
          simpa [expansionKeepsB, List.isEmpty_iff] using hk
        exact hx2 (he ▸ hv)
      rw [List.count_append, List.count_erase_of_ne hxs,
        List.count_eq_zero.mpr (expansionRepl_not_mem run max_versions x s hv hk)]
      simp

/-- C6 (confirmed): for every spec `s` of the collection, if the
safe-version collaborator reports nothing for `s`'s recipe — a non-zero
exit status and an empty parse both yield the empty version list — then
the expander leaves `s` in the collection unchanged: its multiplicity is
preserved (neither removed, nor replaced, nor duplicated) and it is still
a member of the result. -/
theorem spec_c6_theorem (run : Str → Int × Str) (specs : List Str) (max_versions : Int)
    (s : Str) (hm : s ∈ specs)
    (hv : get_safe_versions run (s.takeWhile (· ≠ '@')) = []) :
    (expand_specs_to_check_package_versions run specs max_versions).count s = specs.count s ∧
    s ∈ expand_specs_to_check_package_versions run specs max_versions := by
  have hc := expand_count_const run max_versions s hv specs specs
  refine ⟨hc, ?_⟩
  rw [← List.count_pos_iff] at hm ⊢
  rw [expand_specs_to_check_package_versions, hc]
  exact hm

/-- C6 witness: a collaborator that fails with exit status 1 leaves the
bare spec `foo` untouched. -/
theorem spec_c6_witness :
    (expand_specs_to_check_package_versions runErr ["foo".data] 6).count ("foo".data) =
      (["foo".data] : List Str).count ("foo".data) ∧
    "foo".data ∈ expand_specs_to_check_package_versions runErr ["foo".data] 6 :=
  spec_c6_theorem runErr ["foo".data] 6 ("foo".data) (by decide) (by decide)

/-- C10 (confirmed): for a spec `r+w@ver` carrying a variant suffix, the
expander queries the safe-version collaborator with only the recipe name
`r` before the first `+` (the first conjunct shows the query result for
`r+w` equals the one for `r`, both calling the collaborator on `r`),
while every expanded spec it appends retains the full variant-bearing
prefix `r+w` before `@` — variants are never dropped, only the version
part is replaced. -/
theorem spec_c10_theorem (run : Str → Int × Str) (r w ver : Str) (max_versions : Int)
    (h1 : '+' ∉ r) (h2 : '@' ∉ r) (h3 : '@' ∉ w) :
    get_safe_versions run (r ++ '+' :: w) = get_safe_versions run r ∧
    expand_specs_to_check_package_versions run [r ++ '+' :: w ++ '@' :: ver] max_versions =
      (if get_safe_versions run r = [] then [r ++ '+' :: w ++ '@' :: ver]
       else (pyTake max_versions (get_safe_versions run r)).map
         (fun v => (r ++ '+' :: w) ++ '@' :: v)) := by
  have hq : get_safe_versions run (r ++ '+' :: w) = get_safe_versions run r := by
    simp only [get_safe_versions]
    rw [takeWhile_ne_append w h1, takeWhile_ne_eq_self h1]
  refine ⟨hq, ?_⟩
  have hat : (r ++ '+' :: w ++ '@' :: ver).takeWhile (· ≠ '@') = r ++ '+' :: w := by
    rw [show r ++ '+' :: w ++ '@' :: ver = (r ++ '+' :: w) ++ '@' :: ver by simp]
    refine takeWhile_ne_append ver ?_
    simp only [List.mem_append, List.mem_cons]
    rintro (hr | he | hw)
    · exact h2 hr
    · exact absurd he (by decide)
    · exact h3 hw
  simp only [expand_specs_to_check_package_versions, List.foldl_cons, List.foldl_nil,
    expandStep, hat, hq]
  by_cases hz : get_safe_versions run r = []
  · simp [hz]
  · rw [if_neg hz, if_neg hz, List.erase_cons_head]
    simp

/-- C10 witness: `foo+bar@1.2` queries `foo` and expands to
`foo+bar@2.0, foo+bar@1.9`. -/
theorem spec_c10_witness :
    (get_safe_versions runC10 ("foo".data ++ '+' :: "bar".data) =
       get_safe_versions runC10 ("foo".data) ∧
     expand_specs_to_check_package_versions runC10
         ["foo".data ++ '+' :: "bar".data ++ '@' :: "1.2".data] 6 =
       (if get_safe_versions runC10 ("foo".data) = [] then
          ["foo".data ++ '+' :: "bar".data ++ '@' :: "1.2".data]
        else (pyTake 6 (get_safe_versions runC10 ("foo".data))).map
          (fun v => ("foo".data ++ '+' :: "bar".data) ++ '@' :: v))) ∧
    expand_specs_to_check_package_versions runC10 ["foo+bar@1.2".data] 6 =
      ["foo+bar@2.0".data, "foo+bar@1.9".data] :=
  ⟨spec_c10_theorem runC10 ("foo".data) ("bar".data) ("1.2".data) 6
     (by decide) (by decide) (by decide), by decide⟩

theorem foldl_range_lastSome (P : Nat → Prop) [DecidablePred P] (n m : Nat)
    (hm : P m) (hmn : m < n) (hmax : ∀ k, m < k → k < n → ¬ P k) :
    (List.range n).foldl (fun best j => if P j then some j else best) none = some m := by
  induction n with
  | zero => omega
  | succ n ih =>
    rw [List.range_succ, List.foldl_append, List.foldl_cons, List.foldl_nil]
    by_cases h : m = n
    · subst h; rw [if_pos hm]
    · have hn : ¬ P n := hmax n (by omega) (by omega)
      rw [if_neg hn]
      exact ih (by omega) (fun k hk1 hk2 => hmax k hk1 (by omega))

theorem lastCloseP_quote (b c : Str) (hb : b ≠ []) (hbn : '\n' ∉ b) (hc : '"' ∉ c) :
    lastCloseP (fun t => ("\"".data).isPrefixOf t) 1 (b ++ '"' :: c) = some b.length := by
  rw [lastCloseP]
  refine foldl_range_lastSome _ _ b.length ?_ ?_ ?_
  · refine ⟨List.length_pos.mpr hb, ?_, ?_⟩
    · rw [List.drop_left, List.isPrefixOf_iff_prefix]
      exact ⟨c, rfl⟩
    · rw [List.take_left]
      exact hbn
  · simp
    omega
  · intro k hk1 hk2 hP
    obtain ⟨-, hpre, -⟩ := hP
    have hk : k = b.length + (k - b.length) := by omega
    rw [hk, List.drop_append] at hpre
    have h1 : 1 ≤ k - b.length := by omega
    rw [List.isPrefixOf_iff_prefix] at hpre
    have : '"' ∈ ('"' :: c).drop (k - b.length) := hpre.subset (by simp)
    have h2 : ('"' :: c).drop (k - b.length) = c.drop (k - b.length - 1) := by
      have he : k - b.length = (k - b.length - 1) + 1 := by omega
      conv in List.drop (k - b.length) ('"' :: c) => rw [he]
      rw [List.drop_succ_cons]
    rw [h2] at this
    exact hc (List.mem_of_mem_drop this)

theorem searchGroupP_quote_skip (ok : Str → Bool) (p rest : Str) (hp : '"' ∉ p) :
    searchGroupP ("\"".data) ok 1 (p ++ rest) = searchGroupP ("\"".data) ok 1 rest := by
  induction p with
  | nil => rfl
  | cons x t ih =>
    have hx : x ≠ '"' := fun he => hp (he ▸ List.mem_cons_self x t)
    rw [List.cons_append, searchGroupP]
    have hf : ("\"".data).isPrefixOf (x :: (t ++ rest)) = false := by
      simp [List.isPrefixOf]
      exact fun he => hx he.symm
    rw [hf]
    rw [if_neg (by simp)]
    exact ih (fun hm => hp (List.mem_cons_of_mem x hm))

theorem search_quoted_greedy (a b c : Str) (ha : '"' ∉ a) (hb : b ≠ [])
    (hbn : '\n' ∉ b) (hc : '"' ∉ c) :
    search_quoted (a ++ '"' :: (b ++ '"' :: c)) = some b := by
  rw [search_quoted, searchGroupP_quote_skip _ a _ ha, searchGroupP]
  have hp : ("\"".data).isPrefixOf ('"' :: (b ++ '"' :: c)) = true := by
    rw [List.isPrefixOf_iff_prefix]
    exact ⟨b ++ '"' :: c, rfl⟩
  rw [hp, if_pos rfl]
  have hdrop : ('"' :: (b ++ '"' :: c)).drop (("\"".data).length) = b ++ '"' :: c := rfl
  rw [hdrop, lastCloseP_quote b c hb hbn hc]
  show some ((b ++ '"' :: c).take b.length) = some b
  rw [List.take_left]

theorem diffGuard_plus (l : Str) : ("diff --git".data).isPrefixOf ('+' :: l) = false := by
  have hd : "diff --git".data = 'd' :: "iff --git".data := rfl
  rw [hd]
  simp [List.isPrefixOf]

theorem processLine_await (st : ParseState) (rest v : Str)
    (hcr : st.changed_recipe ≠ [])
    (hnext : st.next_line_is_version = true)
    (hpath : search_changed_path ('+' :: rest) = none)
    (hdecl : search_version_decl ('+' :: rest) = none)
    (hopen : version_start_match ('+' :: rest) = false)
    (hq : search_quoted ('+' :: rest) = some v) :
    processLine st ('+' :: rest) = some { st with next_line_is_version := false, specs := (if st.changed_recipe ∈ st.specs then st.specs.erase st.changed_recipe else st.specs) ++ [st.changed_recipe ++ '@' :: v] } := by
  rw [processLine, diffGuard_plus]
  rw [if_neg (by simp)]
  show (if ('+' : Char) ≠ '+' then some st else _) = _
  rw [if_neg (by simp)]
  rw [hpath]
  show (if st.changed_recipe = [] then some st else _) = _
  rw [if_neg hcr, hopen]
  rw [if_neg (by simp)]
  rw [hdecl]
  rw [if_pos (Or.inl hnext)]
  rw [show (none <|> search_quoted ('+' :: rest)) = search_quoted ('+' :: rest) from rfl, hq]

theorem foldlM_processLine_one (s : ParseState) (l : Str) :
    List.foldlM processLine s [l] = processLine s l := by
  cases hone : processLine s l <;> simp [List.foldlM, hone]

theorem searchGroupP_cons_of_ne (openPat : Str) (ok : Str → Bool) (minLen : Nat)
    (x : Char) (l : Str) (h : openPat.isPrefixOf (x :: l) = false) :
    searchGroupP openPat ok minLen (x :: l) = searchGroupP openPat ok minLen l := by
  rw [searchGroupP, h]
  rw [if_neg (by simp)]

theorem vguard (x : Char) (l : Str) (hx : x ≠ 'v') :
    ("version(\"".data).isPrefixOf (x :: l) = false := by
  rw [show "version(\"".data = 'v' :: "ersion(\"".data from rfl]
  simp [List.isPrefixOf]
  exact fun h => absurd h.symm hx

theorem lastCloseP_close3 (b c : Str) (hb : b ≠ []) (hbn : '\n' ∉ b) (hc : '"' ∉ c) :
    lastCloseP (fun t => ("\", ".data).isPrefixOf t) 1 (b ++ '"' :: ',' :: ' ' :: c) =
      some b.length := by
  rw [lastCloseP]
  refine foldl_range_lastSome _ _ b.length ?_ ?_ ?_
  · refine ⟨List.length_pos.mpr hb, ?_, ?_⟩
    · rw [List.drop_left, List.isPrefixOf_iff_prefix]
      exact ⟨c, rfl⟩
    · rw [List.take_left]
      exact hbn
  · simp
    omega
  · intro k hk1 hk2 hP
    obtain ⟨-, hpre, -⟩ := hP
    have hk : k = b.length + (k - b.length) := by omega
    rw [hk, List.drop_append] at hpre
    rw [List.isPrefixOf_iff_prefix] at hpre
    set m := k - b.length with hm
    have h1 : 1 ≤ m := by omega
    rcases Nat.lt_or_ge m 3 with hlt | hge
    · interval_cases m
      · have : ('"' :: ',' :: ' ' :: c).drop 1 = ',' :: ' ' :: c := rfl
        rw [this] at hpre
        have hin := hpre.subset (show '"' ∈ "\", ".data by decide)
        rcases List.mem_cons.mp hin with h1 | h2
        · exact absurd h1 (by decide)
        · rcases List.mem_cons.mp h2 with h3 | h4
          · exact absurd h3 (by decide)
          · exact hc h4
      · have : ('"' :: ',' :: ' ' :: c).drop 2 = ' ' :: c := rfl
        rw [this] at hpre
        have hin := hpre.subset (show '"' ∈ "\", ".data by decide)
        rcases List.mem_cons.mp hin with h1 | h2
        · exact absurd h1 (by decide)
        · exact hc h2
    · have hd : ('"' :: ',' :: ' ' :: c).drop m = c.drop (m - 3) := by
        have he : m = (m - 3) + 3 := by omega
        conv in List.drop m ('"' :: ',' :: ' ' :: c) => rw [he]
        rw [show (m - 3) + 3 = ((m - 3) + 2) + 1 from rfl, List.drop_succ_cons,
          show (m - 3) + 2 = ((m - 3) + 1) + 1 from rfl, List.drop_succ_cons,
          List.drop_succ_cons]
      rw [hd] at hpre
      have := hpre.subset (show '"' ∈ "\", ".data by decide)
      exact hc (List.mem_of_mem_drop this)

theorem search_version_decl_greedy (b c : Str) (hb : b ≠ []) (hbn : '\n' ∉ b) (hc : '"' ∉ c) :
    search_version_decl ("+    version(\"".data ++ (b ++ '"' :: ',' :: ' ' :: c)) = some b := by
  rw [search_version_decl]
  rw [show ("+    version(\"".data ++ (b ++ '"' :: ',' :: ' ' :: c) : Str) =
    '+' :: ' ' :: ' ' :: ' ' :: ' ' :: ("version(\"".data ++ (b ++ '"' :: ',' :: ' ' :: c)) from rfl]
  rw [searchGroupP_cons_of_ne _ _ _ _ _ (vguard '+' _ (by decide))]
  rw [searchGroupP_cons_of_ne _ _ _ _ _ (vguard ' ' _ (by decide))]
  rw [searchGroupP_cons_of_ne _ _ _ _ _ (vguard ' ' _ (by decide))]
  rw [searchGroupP_cons_of_ne _ _ _ _ _ (vguard ' ' _ (by decide))]
  rw [searchGroupP_cons_of_ne _ _ _ _ _ (vguard ' ' _ (by decide))]
  rw [show ("version(\"".data ++ (b ++ '"' :: ',' :: ' ' :: c) : Str) =
    'v' :: ("ersion(\"".data ++ (b ++ '"' :: ',' :: ' ' :: c)) from rfl]
  rw [searchGroupP]
  have htrue : ("version(\"".data).isPrefixOf
      ('v' :: ("ersion(\"".data ++ (b ++ '"' :: ',' :: ' ' :: c))) = true := by
    rw [show ('v' :: ("ersion(\"".data ++ (b ++ '"' :: ',' :: ' ' :: c)) : Str) =
      "version(\"".data ++ (b ++ '"' :: ',' :: ' ' :: c) from rfl,
      List.isPrefixOf_iff_prefix]
    exact List.prefix_append _ _
  rw [htrue, if_pos rfl]
  have hdrop : ('v' :: ("ersion(\"".data ++ (b ++ '"' :: ',' :: ' ' :: c))).drop
      (("version(\"".data).length) = b ++ '"' :: ',' :: ' ' :: c := rfl
  rw [hdrop, lastCloseP_close3 b c hb hbn hc]
  show some ((b ++ '"' :: ',' :: ' ' :: c).take b.length) = some b
  rw [List.take_left]

theorem processLine_decl (st : ParseState) (rest v : Str)
    (hcr : st.changed_recipe ≠ [])
    (hpath : search_changed_path ('+' :: rest) = none)
    (hdecl : search_version_decl ('+' :: rest) = some v)
    (hopen : version_start_match ('+' :: rest) = false) :
    processLine st ('+' :: rest) = some { st with next_line_is_version := false, specs := (if st.changed_recipe ∈ st.specs then st.specs.erase st.changed_recipe else st.specs) ++ [st.changed_recipe ++ '@' :: v] } := by
  rw [processLine, diffGuard_plus]
  rw [if_neg (by simp)]
  show (if ('+' : Char) ≠ '+' then some st else _) = _
  rw [if_neg (by simp)]
  rw [hpath]
  show (if st.changed_recipe = [] then some st else _) = _
  rw [if_neg hcr, hopen]
  rw [if_neg (by simp)]
  rw [hdecl]
  simp only [Option.isSome_some]
  rw [if_pos (Or.inr trivial)]
  rfl


/-- C5 (amended): the version string the extractor appends is the greedy
regex match, not the first quoted token.  In `awaiting_version_value`
mode, for any value line `+a"b"c` whose only surrounding quotes delimit
`b` (with `b` itself arbitrary quote-containing text), the version
extracted is `b`, the text between the first and the last quote of the
line.  With the declaration syntax `version("e", f` on one line, the
version extracted is `e`, the text between `version("` and the last
following `", ` of the line.  Either way the match equals the first
quoted token only when no later closing delimiter occurs on the line. -/
theorem spec_c5_amended (a b c e f : Str)
    (ha : '"' ∉ a) (hb : b ≠ []) (hbn : '\n' ∉ b) (hc : '"' ∉ c)
    (hpath : search_changed_path ('+' :: (a ++ '"' :: (b ++ '"' :: c))) = none)
    (hdecl : search_version_decl ('+' :: (a ++ '"' :: (b ++ '"' :: c))) = none)
    (hopen : version_start_match ('+' :: (a ++ '"' :: (b ++ '"' :: c))) = false)
    (he : e ≠ []) (hen : '\n' ∉ e) (hf : '"' ∉ f)
    (hpath2 : search_changed_path ("+    version(\"".data ++ (e ++ '"' :: ',' :: ' ' :: f)) = none)
    (hopen2 : version_start_match ("+    version(\"".data ++ (e ++ '"' :: ',' :: ' ' :: f)) = false) :
    (parseDiffLines
        ["+++ b/var/spack/repos/builtin/packages/foo/package.py".data,
         "+    version(".data,
         '+' :: (a ++ '"' :: (b ++ '"' :: c))]).map (fun st => st.specs) =
      some ["foo".data ++ '@' :: b] ∧
    (parseDiffLines
        ["+++ b/var/spack/repos/builtin/packages/foo/package.py".data,
         "+    version(\"".data ++ (e ++ '"' :: ',' :: ' ' :: f)]).map (fun st => st.specs) =
      some ["foo".data ++ '@' :: e] := by
  constructor
  ·
    have h12 : parseDiffLines
        ["+++ b/var/spack/repos/builtin/packages/foo/package.py".data,
         "+    version(".data] =
        some { changed_files := ["var/spack/repos/builtin/packages/foo/package.py".data], changed_recipe := "foo".data, recipe_paths := ["var/spack/repos/builtin/packages/foo/package.py".data], recipes := ["foo".data], specs := ["foo".data], variants := [], versions := [], next_line_is_version := true } := by
      decide
    have hsplit : ["+++ b/var/spack/repos/builtin/packages/foo/package.py".data,
        "+    version(".data, '+' :: (a ++ '"' :: (b ++ '"' :: c))] =
        ["+++ b/var/spack/repos/builtin/packages/foo/package.py".data,
         "+    version(".data] ++ ['+' :: (a ++ '"' :: (b ++ '"' :: c))] := rfl
    rw [parseDiffLines, hsplit, List.foldlM_append]
    rw [parseDiffLines] at h12
    rw [h12]
    have ha2 : '"' ∉ ('+' :: a) := by
      intro hm
      rcases List.mem_cons.mp hm with he | hm2
      · exact absurd he (by decide)
      · exact ha hm2
    have hq : search_quoted ('+' :: (a ++ '"' :: (b ++ '"' :: c))) = some b := by
      have : '+' :: (a ++ '"' :: (b ++ '"' :: c)) = ('+' :: a) ++ '"' :: (b ++ '"' :: c) := rfl
      rw [this]
      exact search_quoted_greedy ('+' :: a) b c ha2 hb hbn hc
    have hstep := processLine_await
      { changed_files := ["var/spack/repos/builtin/packages/foo/package.py".data], changed_recipe := "foo".data, recipe_paths := ["var/spack/repos/builtin/packages/foo/package.py".data], recipes := ["foo".data], specs := ["foo".data], variants := [], versions := [], next_line_is_version := true }
      (a ++ '"' :: (b ++ '"' :: c)) b (by decide) rfl hpath hdecl hopen hq
    simp only [Option.bind_eq_bind, Option.some_bind]
    rw [foldlM_processLine_one, hstep, Option.map_some']
    show some ((if "foo".data ∈ (["foo".data] : List Str) then (["foo".data] : List Str).erase ("foo".data) else ["foo".data]) ++ ["foo".data ++ '@' :: b]) = some ["foo".data ++ '@' :: b]
    rw [if_pos (by decide), show (["foo".data] : List Str).erase ("foo".data) = [] from by decide, List.nil_append]
  ·
    have h1 : parseDiffLines ["+++ b/var/spack/repos/builtin/packages/foo/package.py".data] =
        some { changed_files := ["var/spack/repos/builtin/packages/foo/package.py".data], changed_recipe := "foo".data, recipe_paths := ["var/spack/repos/builtin/packages/foo/package.py".data], recipes := ["foo".data], specs := ["foo".data], variants := [], versions := [], next_line_is_version := false } := by
      decide
    have hsplit : ["+++ b/var/spack/repos/builtin/packages/foo/package.py".data,
        "+    version(\"".data ++ (e ++ '"' :: ',' :: ' ' :: f)] =
        ["+++ b/var/spack/repos/builtin/packages/foo/package.py".data] ++
          ["+    version(\"".data ++ (e ++ '"' :: ',' :: ' ' :: f)] := rfl
    rw [parseDiffLines, hsplit, List.foldlM_append]
    rw [parseDiffLines] at h1
    rw [h1]
    have hcons : ("+    version(\"".data ++ (e ++ '"' :: ',' :: ' ' :: f) : Str) =
        '+' :: ("    version(\"".data ++ (e ++ '"' :: ',' :: ' ' :: f)) := rfl
    have hdecl2 : search_version_decl ('+' :: ("    version(\"".data ++ (e ++ '"' :: ',' :: ' ' :: f))) = some e := by
      rw [← hcons]
      exact search_version_decl_greedy e f he hen hf
    have hstep := processLine_decl
      { changed_files := ["var/spack/repos/builtin/packages/foo/package.py".data], changed_recipe := "foo".data, recipe_paths := ["var/spack/repos/builtin/packages/foo/package.py".data], recipes := ["foo".data], specs := ["foo".data], variants := [], versions := [], next_line_is_version := false }
      ("    version(\"".data ++ (e ++ '"' :: ',' :: ' ' :: f)) e (by decide)
      (hcons ▸ hpath2) hdecl2 (hcons ▸ hopen2)
    simp only [Option.bind_eq_bind, Option.some_bind]
    rw [foldlM_processLine_one, hcons, hstep, Option.map_some']
    show some ((if "foo".data ∈ (["foo".data] : List Str) then (["foo".data] : List Str).erase ("foo".data) else ["foo".data]) ++ ["foo".data ++ '@' :: e]) = some ["foo".data ++ '@' :: e]
    rw [if_pos (by decide), show (["foo".data] : List Str).erase ("foo".data) = [] from by decide, List.nil_append]

/-- C5 witness: on the awaiting-mode value line
`+    "2.1", sha256="abc"` and on the one-line declaration
`+    version("2.1", sha256="abc", x=1)` the version extracted is the
greedy span `2.1", sha256="abc`, not the first quoted token `2.1`. -/
theorem spec_c5_witness :
    (parseDiffLines
        ["+++ b/var/spack/repos/builtin/packages/foo/package.py".data,
         "+    version(".data,
         '+' :: ("    ".data ++ '"' :: ("2.1\", sha256=\"abc".data ++ '"' :: ([] : Str)))]).map
        (fun st => st.specs) = some ["foo".data ++ '@' :: "2.1\", sha256=\"abc".data] ∧
    (parseDiffLines
        ["+++ b/var/spack/repos/builtin/packages/foo/package.py".data,
         "+    version(\"".data ++
           ("2.1\", sha256=\"abc".data ++ '"' :: ',' :: ' ' :: "x=1)".data)]).map
        (fun st => st.specs) = some ["foo".data ++ '@' :: "2.1\", sha256=\"abc".data] :=
  spec_c5_amended ("    ".data) ("2.1\", sha256=\"abc".data) [] ("2.1\", sha256=\"abc".data)
    ("x=1)".data) (by decide) (by decide) (by decide) (by decide) (by decide) (by decide)
    (by decide) (by decide) (by decide) (by decide) (by decide) (by decide)

theorem firstSep_eq {R T x y : Str} {c d : Char}
    (hRc : c ∉ R) (hRd : d ∉ R) (hTc : c ∉ T) (hTd : d ∉ T)
    (h : R ++ c :: x = T ++ d :: y) : R = T ∧ c = d ∧ x = y := by
  induction R generalizing T with
  | nil =>
    cases T with
    | nil =>
      simp only [List.nil_append] at h
      obtain ⟨h1, h2⟩ := List.cons.inj h
      exact ⟨rfl, h1, h2⟩
    | cons t ts =>
      simp only [List.nil_append, List.cons_append] at h
      obtain ⟨h1, -⟩ := List.cons.inj h
      exact absurd (h1 ▸ List.mem_cons_self t ts) hTc
  | cons r rs ih =>
    cases T with
    | nil =>
      simp only [List.cons_append, List.nil_append] at h
      obtain ⟨h1, -⟩ := List.cons.inj h
      exact absurd (h1.symm ▸ List.mem_cons_self r rs) hRd
    | cons t ts =>
      simp only [List.cons_append] at h
      obtain ⟨h1, h2⟩ := List.cons.inj h
      obtain ⟨h3, h4, h5⟩ := ih (fun hm => hRc (List.mem_cons_of_mem r hm))
        (fun hm => hRd (List.mem_cons_of_mem r hm))
        (fun hm => hTc (List.mem_cons_of_mem t hm))
        (fun hm => hTd (List.mem_cons_of_mem t hm)) h2
      exact ⟨h1 ▸ h3 ▸ rfl, h4, h5⟩

theorem clean_not_specificFor {R r : Str} (hr : '@' ∉ r ∧ '+' ∉ r) :
    ¬ specificFor R r := by
  rintro ⟨t, h | h⟩
  · exact hr.1 (h ▸ List.mem_append_right R (List.mem_cons_self _ _))
  · exact hr.2 (h ▸ List.mem_append_right R (List.mem_cons_self _ _))

theorem composite_ne_clean {R cr t : Str} {sep : Char} (hsep : sep = '@' ∨ sep = '+')
    (hR : Clean R) : cr ++ sep :: t ≠ R := by
  intro h
  have : sep ∈ R := h ▸ List.mem_append_right cr (List.mem_cons_self _ _)
  rcases hsep with rfl | rfl
  · exact hR.2.1 this
  · exact hR.2.2 this

theorem composite_not_specificFor {R cr t : Str} {sep : Char} (hsep : sep = '@' ∨ sep = '+')
    (hR : Clean R) (hcr : Clean cr) (hne : cr ≠ R) :
    ¬ specificFor R (cr ++ sep :: t) := by
  rintro ⟨u, h | h⟩
  · rcases hsep with rfl | rfl
    · exact hne (firstSep_eq hcr.2.1 hcr.2.1 hR.2.1 hR.2.1 h).1
    · exact hne (firstSep_eq hcr.2.2 hcr.2.1 hR.2.2 hR.2.1 h).1
  · rcases hsep with rfl | rfl
    · exact hne (firstSep_eq hcr.2.1 hcr.2.2 hR.2.1 hR.2.2 h).1
    · exact hne (firstSep_eq hcr.2.2 hcr.2.2 hR.2.2 hR.2.2 h).1

theorem eraseIf_eq (a : Str) (l : List Str) :
    (if a ∈ l then l.erase a else l) = l.erase a := by
  split
  · rfl
  · exact (List.erase_of_not_mem (by assumption)).symm

theorem count_le_one_not_mem_erase {R : Str} {l : List Str} (h : l.count R ≤ 1) :
    R ∉ l.erase R := by
  intro hm
  have := List.count_erase_self R l
  have hpos := List.count_pos_iff.mpr hm
  omega

theorem apps_count_zero {R cr : Str} (hR : Clean R) (apps : List Str)
    (happ : ∀ s ∈ apps, ∃ sep t, (sep = '@' ∨ sep = '+') ∧ s = cr ++ sep :: t) :
    apps.count R = 0 := by
  rw [List.count_eq_zero]
  intro hm
  obtain ⟨sep, t, hsep, heq⟩ := happ R hm
  exact composite_ne_clean hsep hR heq.symm

theorem invSeen_update {R : Str} (hR : Clean R) {specs : List Str} {cr : Str} (hcr : Clean cr)
    (apps : List Str)
    (happ : ∀ s ∈ apps, ∃ sep t, (sep = '@' ∨ sep = '+') ∧ s = cr ++ sep :: t)
    (hcount : specs.count R ≤ 1)
    (hboth : ¬(R ∈ specs ∧ ∃ s ∈ specs, specificFor R s)) :
    ((if cr ∈ specs then specs.erase cr else specs) ++ apps).count R ≤ 1 ∧
    ¬(R ∈ (if cr ∈ specs then specs.erase cr else specs) ++ apps ∧
      ∃ s ∈ (if cr ∈ specs then specs.erase cr else specs) ++ apps, specificFor R s) := by
  rw [eraseIf_eq]
  have hac := apps_count_zero hR apps happ
  by_cases hcreq : cr = R
  · subst hcreq
    have hnm : cr ∉ specs.erase cr := count_le_one_not_mem_erase hcount
    constructor
    · rw [List.count_append, hac]
      have := List.count_erase_self cr specs
      omega
    · rintro ⟨hmem, -⟩
      rcases List.mem_append.mp hmem with hm | hm
      · exact hnm hm
      · rw [List.count_eq_zero] at hac
        exact hac hm
  · constructor
    · rw [List.count_append, hac, List.count_erase_of_ne (fun h => hcreq h.symm)]
      omega
    · rintro ⟨hmem, s, hs, hspec⟩
      have hmem2 : R ∈ specs := by
        rcases List.mem_append.mp hmem with hm | hm
        · exact List.mem_of_mem_erase hm
        · rw [List.count_eq_zero] at hac
          exact absurd hm hac
      have hs2 : s ∈ specs := by
        rcases List.mem_append.mp hs with hm | hm
        · exact List.mem_of_mem_erase hm
        · obtain ⟨sep, t, hsep, heq⟩ := happ s hm
          exact absurd hspec (heq ▸ composite_not_specificFor hsep hR hcr hcreq)
      exact hboth ⟨hmem2, s, hs2, hspec⟩

theorem invUnseen_update {R : Str} (hR : Clean R) {specs : List Str} {cr : Str} (hcr : Clean cr)
    (hcrne : cr ≠ R) (apps : List Str)
    (happ : ∀ s ∈ apps, ∃ sep t, (sep = '@' ∨ sep = '+') ∧ s = cr ++ sep :: t)
    (hnotin : R ∉ specs) (hnospec : ∀ s ∈ specs, ¬ specificFor R s) :
    R ∉ (if cr ∈ specs then specs.erase cr else specs) ++ apps ∧
    ∀ s ∈ (if cr ∈ specs then specs.erase cr else specs) ++ apps, ¬ specificFor R s := by
  rw [eraseIf_eq]
  have hac := apps_count_zero hR apps happ
  rw [List.count_eq_zero] at hac
  constructor
  · intro hm
    rcases List.mem_append.mp hm with hm | hm
    · exact hnotin (List.mem_of_mem_erase hm)
    · exact hac hm
  · intro s hs
    rcases List.mem_append.mp hs with hm | hm
    · exact hnospec s (List.mem_of_mem_erase hm)
    · obtain ⟨sep, t, hsep, heq⟩ := happ s hm
      exact heq ▸ composite_not_specificFor hsep hR hcr hcrne

theorem processLine_InvC3_step (R : Str) (hR : Clean R) (st st' : ParseState) (line : Str)
    (seen : Bool)
    (hcln : ∀ r, captureOf line = some r → Clean r)
    (hnR : seen = true → captureOf line ≠ some R)
    (hst : InvC3 R st seen)
    (hp : processLine st line = some st') :
    InvC3 R st' (seen || decide (captureOf line = some R)) := by
  cases line with
  | nil =>
    simp only [processLine] at hp
    rw [if_neg (by decide)] at hp
    exact absurd hp (by simp)
  | cons x l =>
    simp only [processLine] at hp
    by_cases h1 : ("diff --git".data).isPrefixOf (x :: l)
    case pos =>
      rw [if_pos h1] at hp
      have hcap : captureOf (x :: l) = none := by
        simp only [captureOf]
        rw [if_pos h1]
      rw [hcap]
      obtain rfl := Option.some.inj hp
      have hb : (seen || decide ((none : Option Str) = some R)) = seen := by simp
      rw [hb]
      cases seen with
      | true =>
        obtain ⟨-, hc1, hc2⟩ := hst
        exact ⟨Or.inl rfl, hc1, hc2⟩
      | false =>
        obtain ⟨-, -, hc2, hc3⟩ := hst
        exact ⟨Or.inl rfl, fun h => hR.1 h.symm, hc2, hc3⟩
    case neg =>
      rw [if_neg h1] at hp
      by_cases h2 : x ≠ '+'
      case pos =>
        rw [if_pos h2] at hp
        have hcap : captureOf (x :: l) = none := by
          simp only [captureOf]
          rw [if_neg h1, if_pos h2]
        rw [hcap]
        obtain rfl := Option.some.inj hp
        have hb : (seen || decide ((none : Option Str) = some R)) = seen := by simp
        rw [hb]
        exact hst
      case neg =>
        rw [if_neg h2] at hp
        cases hscp : search_changed_path (x :: l) with
        | some cf =>
          simp only [hscp] at hp
          cases hsr : search_recipe cf with
          | some r =>
            simp only [hsr] at hp
            have hcap : captureOf (x :: l) = some r := by
              simp only [captureOf]
              rw [if_neg h1, if_neg h2, hscp]
              exact hsr
            rw [hcap]
            obtain rfl := Option.some.inj hp
            have hclr : Clean r := hcln r hcap
            by_cases hrR : r = R
            case pos =>
              subst hrR
              have hseenf : seen = false := by
                cases seen with
                | false => rfl
                | true => exact absurd hcap (hnR rfl)
              subst hseenf
              have hb : (false || decide ((some r : Option Str) = some r)) = true := by simp
              rw [hb]
              obtain ⟨-, hne, hnm, hnospec⟩ := hst
              refine ⟨Or.inr hclr, ?_, ?_⟩
              · rw [List.count_append, List.count_eq_zero.mpr hnm]
                simp
              · rintro ⟨-, s, hs, hspec⟩
                rcases List.mem_append.mp hs with hm | hm
                · exact hnospec s hm hspec
                · have hsr : s = r := by simpa using hm
                  exact clean_not_specificFor ⟨hclr.2.1, hclr.2.2⟩ (hsr ▸ hspec)
            case neg =>
              have hb : (seen || decide ((some r : Option Str) = some R)) = seen := by
                simp [hrR]
              rw [hb]
              cases seen with
              | true =>
                obtain ⟨-, hcount, hboth⟩ := hst
                refine ⟨Or.inr hclr, ?_, ?_⟩
                · rw [List.count_append]
                  have hz : List.count R [r] = 0 := by
                    rw [List.count_eq_zero]
                    simpa using fun h => hrR h.symm
                  omega
                · rintro ⟨hmem, s, hs, hspec⟩
                  have hmem2 : R ∈ st.specs := by
                    rcases List.mem_append.mp hmem with hm | hm
                    · exact hm
                    · exact absurd (by simpa using hm : R = r).symm hrR
                  have hs2 : s ∈ st.specs := by
                    rcases List.mem_append.mp hs with hm | hm
                    · exact hm
                    · have hsr : s = r := by simpa using hm
                      exact absurd hspec (hsr ▸ clean_not_specificFor ⟨hclr.2.1, hclr.2.2⟩)
                  exact hboth ⟨hmem2, s, hs2, hspec⟩
              | false =>
                obtain ⟨-, hne, hnm, hnospec⟩ := hst
                refine ⟨Or.inr hclr, hrR, ?_, ?_⟩
                · intro hm
                  rcases List.mem_append.mp hm with h | h
                  · exact hnm h
                  · exact hrR (by simpa using h : R = r).symm
                · intro s hs
                  rcases List.mem_append.mp hs with h | h
                  · exact hnospec s h
                  · have hsr : s = r := by simpa using h
                    exact hsr ▸ clean_not_specificFor ⟨hclr.2.1, hclr.2.2⟩
          | none =>
            simp only [hsr] at hp
            have hcap : captureOf (x :: l) = none := by
              simp only [captureOf]
              rw [if_neg h1, if_neg h2, hscp]
              exact hsr
            rw [hcap]
            obtain rfl := Option.some.inj hp
            have hb : (seen || decide ((none : Option Str) = some R)) = seen := by simp
            rw [hb]
            exact hst
        | none =>
          simp only [hscp] at hp
          have hcap : captureOf (x :: l) = none := by
            simp only [captureOf]
            rw [if_neg h1, if_neg h2, hscp]
          rw [hcap]
          by_cases h3 : st.changed_recipe = []
          case pos =>
            rw [if_pos h3] at hp
            obtain rfl := Option.some.inj hp
            have hb : (seen || decide ((none : Option Str) = some R)) = seen := by simp
            rw [hb]
            exact hst
          case neg =>
            rw [if_neg h3] at hp
            by_cases h4 : version_start_match (x :: l)
            case pos =>
              rw [if_pos h4] at hp
              obtain rfl := Option.some.inj hp
              have hb : (seen || decide ((none : Option Str) = some R)) = seen := by simp
              rw [hb]
              exact hst
            case neg =>
              rw [if_neg (by simpa using h4)] at hp
              by_cases h5 : st.next_line_is_version = true ∨
                  (search_version_decl (x :: l)).isSome = true
              case pos =>
                rw [if_pos h5] at hp
                cases hv : search_version_decl (x :: l) <|> search_quoted (x :: l) with
                | some v =>
                  simp only [hv] at hp
                  obtain rfl := Option.some.inj hp
                  have hb : (seen || decide ((none : Option Str) = some R)) = seen := by simp
                  rw [hb]
                  cases seen with
                  | true =>
                    obtain ⟨hcrok, hcount, hboth⟩ := hst
                    have hclcr : Clean st.changed_recipe := by
                      rcases hcrok with h | h
                      · exact absurd h h3
                      · exact h
                    have happ : ∀ s ∈ [st.changed_recipe ++ '@' :: v], ∃ sep t,
                        (sep = '@' ∨ sep = '+') ∧ s = st.changed_recipe ++ sep :: t := by
                      intro s hs
                      have hseq : s = st.changed_recipe ++ '@' :: v := by simpa using hs
                      exact ⟨'@', v, Or.inl rfl, hseq⟩
                    have hmain := invSeen_update hR hclcr _ happ hcount hboth
                    exact ⟨Or.inr hclcr, hmain.1, hmain.2⟩
                  | false =>
                    obtain ⟨hcrok, hne, hnm, hnospec⟩ := hst
                    have hclcr : Clean st.changed_recipe := by
                      rcases hcrok with h | h
                      · exact absurd h h3
                      · exact h
                    have happ : ∀ s ∈ [st.changed_recipe ++ '@' :: v], ∃ sep t,
                        (sep = '@' ∨ sep = '+') ∧ s = st.changed_recipe ++ sep :: t := by
                      intro s hs
                      have hseq : s = st.changed_recipe ++ '@' :: v := by simpa using hs
                      exact ⟨'@', v, Or.inl rfl, hseq⟩
                    have hmain := invUnseen_update hR hclcr hne _ happ hnm hnospec
                    exact ⟨Or.inr hclcr, hne, hmain.1, hmain.2⟩
                | none =>
                  simp only [hv] at hp
                  obtain rfl := Option.some.inj hp
                  have hb : (seen || decide ((none : Option Str) = some R)) = seen := by simp
                  rw [hb]
                  exact hst
              case neg =>
                rw [if_neg h5] at hp
                cases hvar : search_variant (x :: l) with
                | some var =>
                  simp only [hvar] at hp
                  obtain rfl := Option.some.inj hp
                  have hb : (seen || decide ((none : Option Str) = some R)) = seen := by simp
                  rw [hb]
                  have happ : ∀ s ∈ ([st.changed_recipe ++ '+' :: var] ++
                      st.versions.map (fun ver => st.changed_recipe ++ '+' :: var ++ '@' :: ver)),
                      ∃ sep t, (sep = '@' ∨ sep = '+') ∧ s = st.changed_recipe ++ sep :: t := by
                    intro s hs
                    rcases List.mem_append.mp hs with hm | hm
                    · exact ⟨'+', var, Or.inr rfl, by simpa using hm⟩
                    · obtain ⟨ver, -, hveq⟩ := List.mem_map.mp hm
                      refine ⟨'+', var ++ '@' :: ver, Or.inr rfl, ?_⟩
                      rw [← hveq]
                      simp
                  cases seen with
                  | true =>
                    obtain ⟨hcrok, hcount, hboth⟩ := hst
                    have hclcr : Clean st.changed_recipe := by
                      rcases hcrok with h | h
                      · exact absurd h h3
                      · exact h
                    have hmain := invSeen_update hR hclcr _ happ hcount hboth
                    refine ⟨Or.inr hclcr, ?_, ?_⟩
                    · rw [List.append_assoc]
                      exact hmain.1
                    · rw [List.append_assoc]
                      exact hmain.2
                  | false =>
                    obtain ⟨hcrok, hne, hnm, hnospec⟩ := hst
                    have hclcr : Clean st.changed_recipe := by
                      rcases hcrok with h | h
                      · exact absurd h h3
                      · exact h
                    have hmain := invUnseen_update hR hclcr hne _ happ hnm hnospec
                    refine ⟨Or.inr hclcr, hne, ?_, ?_⟩
                    · rw [List.append_assoc]
                      exact hmain.1
                    · rw [List.append_assoc]
                      exact hmain.2
                | none =>
                  simp only [hvar] at hp
                  obtain rfl := Option.some.inj hp
                  have hb : (seen || decide ((none : Option Str) = some R)) = seen := by simp
                  rw [hb]
                  exact hst

theorem parse_InvC3 (R : Str) (hR : Clean R) :
    ∀ (lines : List Str) (st : ParseState) (seen : Bool),
      (∀ r ∈ captures lines, Clean r) →
      (seen = true → R ∉ captures lines) →
      (captures lines).count R ≤ 1 →
      InvC3 R st seen →
      ∀ st', lines.foldlM processLine st = some st' →
      ∃ seen', InvC3 R st' seen' := by
  intro lines
  induction lines with
  | nil =>
    intro st seen _ _ _ hst st' hp
    have heq : st = st' := by simpa [List.foldlM] using hp
    exact ⟨seen, heq ▸ hst⟩
  | cons l ls ih =>
    intro st seen hcln hseen hcount hst st' hp
    rw [List.foldlM_cons] at hp
    cases hpl : processLine st l with
    | none =>
      rw [hpl] at hp
      exact absurd hp (by simp)
    | some st1 =>
      rw [hpl] at hp
      simp only [Option.bind_eq_bind, Option.some_bind] at hp
      have hstep := processLine_InvC3_step R hR st st1 l seen
        (fun r hr => hcln r (by
          rw [captures, List.filterMap_cons, hr]
          exact List.mem_cons_self _ _))
        (fun hs hc => hseen hs (by
          rw [captures, List.filterMap_cons, hc]
          exact List.mem_cons_self _ _))
        hst hpl
      cases hcl : captureOf l with
      | none =>
        rw [hcl] at hstep
        have hb : (seen || decide ((none : Option Str) = some R)) = seen := by simp
        rw [hb] at hstep
        have hcs : captures (l :: ls) = captures ls := by
          rw [captures, List.filterMap_cons, hcl]
          rfl
        rw [hcs] at hcln hseen hcount
        exact ih st1 seen hcln hseen hcount hstep st' hp
      | some r =>
        rw [hcl] at hstep
        have hcs : captures (l :: ls) = r :: captures ls := by
          rw [captures, List.filterMap_cons, hcl]
          rfl
        rw [hcs] at hcln hseen hcount
        by_cases hrR : r = R
        · subst hrR
          have hb : (seen || decide ((some r : Option Str) = some r)) = true := by simp
          rw [hb] at hstep
          have hcount2 : (captures ls).count r = 0 := by
            rw [List.count_cons_self] at hcount
            omega
          refine ih st1 true (fun q hq => hcln q (List.mem_cons_of_mem r hq))
            (fun _ => List.count_eq_zero.mp hcount2) ?_ hstep st' hp
          omega
        · have hb : (seen || decide ((some r : Option Str) = some R)) = seen := by
            simp [hrR]
          rw [hb] at hstep
          refine ih st1 seen (fun q hq => hcln q (List.mem_cons_of_mem r hq))
            (fun hs hm => hseen hs (List.mem_cons_of_mem r hm)) ?_ hstep st' hp
          rw [List.count_cons_of_ne (fun h => hrR h.symm)] at hcount
          exact hcount

/-- C3 (amended): for every diff in which each matched recipe name is a
non-empty identifier free of the separators `@` and `+`, and every such
recipe name R, if R's recipe-file path marker is matched at most once,
the final Spec Collection never contains both a bare entry R and a more
specific entry R@version or R+variant at the same time. -/
theorem spec_c3_amended (stdout : Str) (R : Str) (hR : Clean R)
    (hcln : ∀ r ∈ captures (stdout.splitOn '\n'), Clean r)
    (hcount : (captures (stdout.splitOn '\n')).count R ≤ 1)
    (specs : List Str) (hp : get_specs_to_check stdout = some specs) :
    ¬(R ∈ specs ∧ ∃ s ∈ specs, specificFor R s) := by
  rw [get_specs_to_check] at hp
  cases hps : parseDiffLines (stdout.splitOn '\n') with
  | none =>
    rw [hps] at hp
    exact absurd hp (by simp)
  | some stf =>
    rw [hps] at hp
    have hspecs : stf.specs = specs := by simpa using hp
    rw [parseDiffLines] at hps
    have hinit : InvC3 R initState false :=
      ⟨Or.inl rfl, fun h => hR.1 h.symm, by simp [initState], by simp [initState]⟩
    obtain ⟨seen', hinv⟩ := parse_InvC3 R hR (stdout.splitOn '\n') initState false
      hcln (by simp) hcount hinit stf hps
    cases seen' with
    | true => exact hspecs ▸ hinv.2.2
    | false =>
      rintro ⟨hm, -⟩
      exact hinv.2.2.1 (hspecs ▸ hm)

/-- C3 witness: the single-recipe C4 diff satisfies the cleanliness and
at-most-once hypotheses, and its Spec Collection indeed never holds bare
`foo` next to a specific `foo` spec. -/
theorem spec_c3_witness :
    ¬("foo".data ∈ ["foo@2.1".data] ∧ ∃ s ∈ ["foo@2.1".data], specificFor ("foo".data) s) :=
  spec_c3_amended diffC4 ("foo".data) (by decide) (by decide) (by decide)
    ["foo@2.1".data] (by decide)

theorem eraseIf_append (S1 sp : List Str) (cr : Str) (h : cr ∉ S1) :
    (if cr ∈ S1 ++ sp then (S1 ++ sp).erase cr else S1 ++ sp) =
      S1 ++ (if cr ∈ sp then sp.erase cr else sp) := by
  rw [eraseIf_eq, eraseIf_eq, List.erase_append_right _ h]

theorem processLine_coupled (S1 : List Str) (st1 st2 st2' : ParseState) (line : Str)
    (hcr : st1.changed_recipe = st2.changed_recipe)
    (hvs : st1.versions = st2.versions)
    (hvr : st1.variants = st2.variants)
    (hfl : st1.next_line_is_version = st2.next_line_is_version)
    (hsp : st1.specs = S1 ++ st2.specs)
    (hcrS1 : st2.changed_recipe = [] ∨ st2.changed_recipe ∉ S1)
    (hcapS1 : ∀ r, captureOf line = some r → r ∉ S1)
    (hp2 : processLine st2 line = some st2') :
    ∃ st1', processLine st1 line = some st1' ∧
      st1'.changed_recipe = st2'.changed_recipe ∧ st1'.versions = st2'.versions ∧
      st1'.variants = st2'.variants ∧
      st1'.next_line_is_version = st2'.next_line_is_version ∧
      st1'.specs = S1 ++ st2'.specs ∧
      (st2'.changed_recipe = [] ∨ st2'.changed_recipe ∉ S1) := by
  cases line with
  | nil =>
    simp only [processLine] at hp2
    rw [if_neg (by decide)] at hp2
    exact absurd hp2 (by simp)
  | cons x l =>
    simp only [processLine] at hp2
    by_cases h1 : ("diff --git".data).isPrefixOf (x :: l)
    case pos =>
      rw [if_pos h1] at hp2
      obtain rfl := Option.some.inj hp2
      refine ⟨{ st1 with changed_recipe := [], versions := [], variants := [], next_line_is_version := false }, ?_, rfl, rfl, rfl, rfl, hsp, Or.inl rfl⟩
      simp only [processLine]
      rw [if_pos h1]
    case neg =>
      rw [if_neg h1] at hp2
      by_cases h2 : x ≠ '+'
      case pos =>
        rw [if_pos h2] at hp2
        obtain rfl := Option.some.inj hp2
        refine ⟨st1, ?_, hcr, hvs, hvr, hfl, hsp, hcrS1⟩
        simp only [processLine]
        rw [if_neg h1, if_pos h2]
      case neg =>
        rw [if_neg h2] at hp2
        cases hscp : search_changed_path (x :: l) with
        | some cf =>
          simp only [hscp] at hp2
          cases hsr : search_recipe cf with
          | some r =>
            simp only [hsr] at hp2
            obtain rfl := Option.some.inj hp2
            have hcap : captureOf (x :: l) = some r := by
              simp only [captureOf]
              rw [if_neg h1, if_neg h2, hscp]
              exact hsr
            have hrn : r ∉ S1 := hcapS1 r hcap
            refine ⟨{ st1 with changed_files := st1.changed_files ++ [cf], recipe_paths := st1.recipe_paths ++ [cf], changed_recipe := r, recipes := st1.recipes ++ [r], specs := st1.specs ++ [r] }, ?_, rfl, hvs, hvr, hfl, ?_, Or.inr hrn⟩
            · simp only [processLine]
              rw [if_neg h1, if_neg h2]
              simp only [hscp, hsr]
            · rw [hsp, List.append_assoc]
          | none =>
            simp only [hsr] at hp2
            obtain rfl := Option.some.inj hp2
            refine ⟨{ st1 with changed_files := st1.changed_files ++ [cf] }, ?_, hcr, hvs, hvr, hfl, hsp, hcrS1⟩
            simp only [processLine]
            rw [if_neg h1, if_neg h2]
            simp only [hscp, hsr]
        | none =>
          simp only [hscp] at hp2
          by_cases h3 : st2.changed_recipe = []
          case pos =>
            rw [if_pos h3] at hp2
            obtain rfl := Option.some.inj hp2
            refine ⟨st1, ?_, hcr, hvs, hvr, hfl, hsp, hcrS1⟩
            simp only [processLine]
            rw [if_neg h1, if_neg h2]
            simp only [hscp]
            rw [if_pos (hcr.trans h3)]
          case neg =>
            rw [if_neg h3] at hp2
            have h3' : ¬ st1.changed_recipe = [] := fun h => h3 (hcr.symm.trans h)
            have hnotS1 : st2.changed_recipe ∉ S1 := by
              rcases hcrS1 with h | h
              · exact absurd h h3
              · exact h
            by_cases h4 : version_start_match (x :: l)
            case pos =>
              rw [if_pos h4] at hp2
              obtain rfl := Option.some.inj hp2
              refine ⟨{ st1 with next_line_is_version := true }, ?_, hcr, hvs, hvr, rfl, hsp, hcrS1⟩
              simp only [processLine]
              rw [if_neg h1, if_neg h2]
              simp only [hscp]
              rw [if_neg h3', if_pos h4]
            case neg =>
              rw [if_neg (by simpa using h4)] at hp2
              by_cases h5 : st2.next_line_is_version = true ∨
                  (search_version_decl (x :: l)).isSome = true
              case pos =>
                rw [if_pos h5] at hp2
                have h5' : st1.next_line_is_version = true ∨
                    (search_version_decl (x :: l)).isSome = true :=
                  h5.imp (fun h => hfl.trans h) id
                cases hv : search_version_decl (x :: l) <|> search_quoted (x :: l) with
                | some v =>
                  simp only [hv] at hp2
                  obtain rfl := Option.some.inj hp2
                  refine ⟨{ st1 with next_line_is_version := false, specs := (if st1.changed_recipe ∈ st1.specs then st1.specs.erase st1.changed_recipe else st1.specs) ++ [st1.changed_recipe ++ '@' :: v] }, ?_, hcr, hvs, hvr, rfl, ?_, hcrS1⟩
                  · simp only [processLine]
                    rw [if_neg h1, if_neg h2]
                    simp only [hscp]
                    rw [if_neg h3', if_neg (by simpa using h4), if_pos h5']
                    simp only [hv]
                  · rw [hcr, hsp, eraseIf_append S1 st2.specs st2.changed_recipe hnotS1,
                      List.append_assoc]
                | none =>
                  simp only [hv] at hp2
                  obtain rfl := Option.some.inj hp2
                  refine ⟨{ st1 with next_line_is_version := false }, ?_, hcr, hvs, hvr, rfl, hsp, hcrS1⟩
                  simp only [processLine]
                  rw [if_neg h1, if_neg h2]
                  simp only [hscp]
                  rw [if_neg h3', if_neg (by simpa using h4), if_pos h5']
                  simp only [hv]
              case neg =>
                rw [if_neg h5] at hp2
                have h5' : ¬ (st1.next_line_is_version = true ∨
                    (search_version_decl (x :: l)).isSome = true) := by
                  intro h
                  exact h5 (h.imp (fun hh => hfl.symm.trans hh) id)
                cases hvar : search_variant (x :: l) with
                | some var =>
                  simp only [hvar] at hp2
                  obtain rfl := Option.some.inj hp2
                  refine ⟨{ st1 with variants := st1.variants ++ ['+' :: var], specs := ((if st1.changed_recipe ∈ st1.specs then st1.specs.erase st1.changed_recipe else st1.specs) ++ [st1.changed_recipe ++ '+' :: var]) ++ st1.versions.map (fun ver => st1.changed_recipe ++ '+' :: var ++ '@' :: ver) }, ?_, hcr, hvs, ?_, hfl, ?_, hcrS1⟩
                  · simp only [processLine]
                    rw [if_neg h1, if_neg h2]
                    simp only [hscp]
                    rw [if_neg h3', if_neg (by simpa using h4), if_neg h5']
                    simp only [hvar]
                  · rw [hvr]
                  · rw [hcr, hvs, hsp, eraseIf_append S1 st2.specs st2.changed_recipe hnotS1]
                    simp [List.append_assoc]
                | none =>
                  simp only [hvar] at hp2
                  obtain rfl := Option.some.inj hp2
                  refine ⟨st1, ?_, hcr, hvs, hvr, hfl, hsp, hcrS1⟩
                  simp only [processLine]
                  rw [if_neg h1, if_neg h2]
                  simp only [hscp]
                  rw [if_neg h3', if_neg (by simpa using h4), if_neg h5']
                  simp only [hvar]

theorem captures_cons_sub (l : Str) (ls : List Str) :
    ∀ r ∈ captures ls, r ∈ captures (l :: ls) := by
  intro r hr
  rw [captures, List.filterMap_cons]
  cases captureOf l with
  | none => exact hr
  | some q => exact List.mem_cons_of_mem q hr

theorem processLine_reset (st : ParseState) (marker : Str)
    (h : ("diff --git".data).isPrefixOf marker = true) :
    processLine st marker = some { st with changed_recipe := [], versions := [], variants := [], next_line_is_version := false } := by
  simp only [processLine]
  rw [if_pos h]

theorem foldlM_coupled (S1 : List Str) :
    ∀ (lines : List Str) (st1 st2 : ParseState),
      st1.changed_recipe = st2.changed_recipe →
      st1.versions = st2.versions →
      st1.variants = st2.variants →
      st1.next_line_is_version = st2.next_line_is_version →
      st1.specs = S1 ++ st2.specs →
      (st2.changed_recipe = [] ∨ st2.changed_recipe ∉ S1) →
      (∀ r ∈ captures lines, r ∉ S1) →
      ∀ st2', lines.foldlM processLine st2 = some st2' →
      ∃ st1', lines.foldlM processLine st1 = some st1' ∧ st1'.specs = S1 ++ st2'.specs := by
  intro lines
  induction lines with
  | nil =>
    intro st1 st2 _ _ _ _ hsp _ _ st2' hp
    have heq : st2 = st2' := by simpa [List.foldlM] using hp
    exact ⟨st1, by simp [List.foldlM], heq ▸ hsp⟩
  | cons l ls ih =>
    intro st1 st2 hcr hvs hvr hfl hsp hcrS1 hcap st2' hp
    rw [List.foldlM_cons] at hp
    cases hpl : processLine st2 l with
    | none =>
      rw [hpl] at hp
      exact absurd hp (by simp)
    | some st2m =>
      rw [hpl] at hp
      simp only [Option.bind_eq_bind, Option.some_bind] at hp
      obtain ⟨st1m, hp1, hc1, hc2, hc3, hc4, hc5, hc6⟩ :=
        processLine_coupled S1 st1 st2 st2m l hcr hvs hvr hfl hsp hcrS1
          (fun r hr => hcap r (by
            rw [captures, List.filterMap_cons, hr]
            exact List.mem_cons_self _ _)) hpl
      obtain ⟨st1', hf1, hf2⟩ := ih st1m st2m hc1 hc2 hc3 hc4 hc5 hc6
        (fun r hr => hcap r (captures_cons_sub l ls r hr)) st2' hp
      refine ⟨st1', ?_, hf2⟩
      rw [List.foldlM_cons, hp1]
      simpa [Option.bind_eq_bind, Option.some_bind] using hf1

theorem processLine_provenance (caps : List Str) (st st' : ParseState) (line : Str)
    (hcape : ∀ r, captureOf line = some r → r ∈ caps)
    (hsp : ∀ s ∈ st.specs, specFrom caps s)
    (hcr : st.changed_recipe = [] ∨ st.changed_recipe ∈ caps)
    (hp : processLine st line = some st') :
    (∀ s ∈ st'.specs, specFrom caps s) ∧
    (st'.changed_recipe = [] ∨ st'.changed_recipe ∈ caps) := by
  cases line with
  | nil =>
    simp only [processLine] at hp
    rw [if_neg (by decide)] at hp
    exact absurd hp (by simp)
  | cons x l =>
    simp only [processLine] at hp
    by_cases h1 : ("diff --git".data).isPrefixOf (x :: l)
    case pos =>
      rw [if_pos h1] at hp
      obtain rfl := Option.some.inj hp
      exact ⟨hsp, Or.inl rfl⟩
    case neg =>
      rw [if_neg h1] at hp
      by_cases h2 : x ≠ '+'
      case pos =>
        rw [if_pos h2] at hp
        obtain rfl := Option.some.inj hp
        exact ⟨hsp, hcr⟩
      case neg =>
        rw [if_neg h2] at hp
        cases hscp : search_changed_path (x :: l) with
        | some cf =>
          simp only [hscp] at hp
          cases hsr : search_recipe cf with
          | some r =>
            simp only [hsr] at hp
            obtain rfl := Option.some.inj hp
            have hcap : captureOf (x :: l) = some r := by
              simp only [captureOf]
              rw [if_neg h1, if_neg h2, hscp]
              exact hsr
            have hrc : r ∈ caps := hcape r hcap
            refine ⟨?_, Or.inr hrc⟩
            intro s hs
            rcases List.mem_append.mp hs with hm | hm
            · exact hsp s hm
            · exact ⟨r, hrc, Or.inl (by simpa using hm)⟩
          | none =>
            simp only [hsr] at hp
            obtain rfl := Option.some.inj hp
            exact ⟨hsp, hcr⟩
        | none =>
          simp only [hscp] at hp
          by_cases h3 : st.changed_recipe = []
          case pos =>
            rw [if_pos h3] at hp
            obtain rfl := Option.some.inj hp
            exact ⟨hsp, hcr⟩
          case neg =>
            rw [if_neg h3] at hp
            have hcrc : st.changed_recipe ∈ caps := by
              rcases hcr with h | h
              · exact absurd h h3
              · exact h
            by_cases h4 : version_start_match (x :: l)
            case pos =>
              rw [if_pos h4] at hp
              obtain rfl := Option.some.inj hp
              exact ⟨hsp, hcr⟩
            case neg =>
              rw [if_neg (by simpa using h4)] at hp
              by_cases h5 : st.next_line_is_version = true ∨
                  (search_version_decl (x :: l)).isSome = true
              case pos =>
                rw [if_pos h5] at hp
                cases hv : search_version_decl (x :: l) <|> search_quoted (x :: l) with
                | some v =>
                  simp only [hv] at hp
                  obtain rfl := Option.some.inj hp
                  refine ⟨?_, hcr⟩
                  intro s hs
                  rcases List.mem_append.mp hs with hm | hm
                  · rw [eraseIf_eq] at hm
                    exact hsp s (List.mem_of_mem_erase hm)
                  · exact ⟨st.changed_recipe, hcrc,
                      Or.inr ⟨'@', v, Or.inl rfl, by simpa using hm⟩⟩
                | none =>
                  simp only [hv] at hp
                  obtain rfl := Option.some.inj hp
                  exact ⟨hsp, hcr⟩
              case neg =>
                rw [if_neg h5] at hp
                cases hvar : search_variant (x :: l) with
                | some var =>
                  simp only [hvar] at hp
                  obtain rfl := Option.some.inj hp
                  refine ⟨?_, hcr⟩
                  intro s hs
                  rcases List.mem_append.mp hs with hm | hm
                  · rcases List.mem_append.mp hm with hm2 | hm2
                    · rw [eraseIf_eq] at hm2
                      exact hsp s (List.mem_of_mem_erase hm2)
                    · exact ⟨st.changed_recipe, hcrc,
                        Or.inr ⟨'+', var, Or.inr rfl, by simpa using hm2⟩⟩
                  · obtain ⟨ver, -, hveq⟩ := List.mem_map.mp hm
                    refine ⟨st.changed_recipe, hcrc,
                      Or.inr ⟨'+', var ++ '@' :: ver, Or.inr rfl, ?_⟩⟩
                    rw [← hveq]
                    simp
                | none =>
                  simp only [hvar] at hp
                  obtain rfl := Option.some.inj hp
                  exact ⟨hsp, hcr⟩

theorem parse_provenance (caps : List Str) :
    ∀ (lines : List Str) (st : ParseState),
      (∀ r ∈ captures lines, r ∈ caps) →
      (∀ s ∈ st.specs, specFrom caps s) →
      (st.changed_recipe = [] ∨ st.changed_recipe ∈ caps) →
      ∀ st', lines.foldlM processLine st = some st' →
      ∀ s ∈ st'.specs, specFrom caps s := by
  intro lines
  induction lines with
  | nil =>
    intro st _ hsp _ st' hp
    have heq : st = st' := by simpa [List.foldlM] using hp
    exact heq ▸ hsp
  | cons l ls ih =>
    intro st hcape hsp hcr st' hp
    rw [List.foldlM_cons] at hp
    cases hpl : processLine st l with
    | none =>
      rw [hpl] at hp
      exact absurd hp (by simp)
    | some st1 =>
      rw [hpl] at hp
      simp only [Option.bind_eq_bind, Option.some_bind] at hp
      obtain ⟨hsp1, hcr1⟩ := processLine_provenance caps st st1 l
        (fun r hr => hcape r (by
          rw [captures, List.filterMap_cons, hr]
          exact List.mem_cons_self _ _)) hsp hcr hpl
      exact ih st1 (fun r hr => hcape r (captures_cons_sub l ls r hr)) hsp1 hcr1 st' hp

/-- C9 (amended): for two diffs whose recipe names matched in the second
are non-empty, separator-free and disjoint from the recipe names matched
in the first, parsing the concatenation of their line lists with a
file-boundary marker starting the second yields exactly the
concatenation of the spec lists each diff produces alone, and no Diff
Parse Context state leaks across the boundary marker.  (Without the
disjointness the Spec Collection itself leaks, as the counterexample
shows: the second diff removes a bare entry of the first.) -/
theorem spec_c9_amended (L1 L2 : List Str) (marker : Str)
    (hmark : ("diff --git".data).isPrefixOf marker = true)
    (hcln2 : ∀ r ∈ captures L2, Clean r)
    (hdisj : ∀ r ∈ captures L2, r ∉ captures L1)
    (S1 S2 : List Str)
    (h1 : (parseDiffLines L1).map (fun st => st.specs) = some S1)
    (h2 : (parseDiffLines L2).map (fun st => st.specs) = some S2) :
    (parseDiffLines (L1 ++ marker :: L2)).map (fun st => st.specs) = some (S1 ++ S2) := by
  cases hA : parseDiffLines L1 with
  | none =>
    rw [hA] at h1
    exact absurd h1 (by simp)
  | some stA =>
    rw [hA] at h1
    have hSA : stA.specs = S1 := by simpa using h1
    cases hB : parseDiffLines L2 with
    | none =>
      rw [hB] at h2
      exact absurd h2 (by simp)
    | some stB =>
      rw [hB] at h2
      have hSB : stB.specs = S2 := by simpa using h2
      have hprov : ∀ s ∈ S1, specFrom (captures L1) s := by
        intro s hs
        rw [parseDiffLines] at hA
        exact parse_provenance (captures L1) L1 initState (fun r hr => hr)
          (by simp [initState]) (Or.inl rfl) stA hA s (hSA.symm ▸ hs)
      have hS1 : ∀ r ∈ captures L2, r ∉ S1 := by
        intro r hr hmem
        obtain ⟨q, hq, hcase⟩ := hprov r hmem
        rcases hcase with rfl | ⟨sep, t, hsep, heq⟩
        · exact hdisj r hr hq
        · have hcl := hcln2 r hr
          rcases hsep with rfl | rfl
          · exact hcl.2.1 (heq ▸ List.mem_append_right q (List.mem_cons_self _ _))
          · exact hcl.2.2 (heq ▸ List.mem_append_right q (List.mem_cons_self _ _))
      rw [parseDiffLines] at hA hB ⊢
      rw [List.foldlM_append, hA]
      simp only [Option.bind_eq_bind, Option.some_bind]
      rw [List.foldlM_cons, processLine_reset stA marker hmark]
      simp only [Option.bind_eq_bind, Option.some_bind]
      obtain ⟨st1', hf, hsp'⟩ := foldlM_coupled S1 L2
        { stA with changed_recipe := [], versions := [], variants := [], next_line_is_version := false }
        initState rfl rfl rfl rfl (by simp [initState, hSA]) (Or.inl rfl) hS1 stB hB
      rw [hf]
      simp only [Option.map_some']
      rw [hsp', hSB]

/-- C9 witness: a `foo`-only diff concatenated, behind a boundary
marker, with a `bar` diff declaring version 2.1 parses to exactly
`["foo"] ++ ["bar@2.1"]`. -/
theorem spec_c9_witness :
    (parseDiffLines
        (["+++ b/var/spack/repos/builtin/packages/foo/package.py".data] ++
          ("diff --git a/f b/f".data) ::
            ["+++ b/var/spack/repos/builtin/packages/bar/package.py".data,
             "+    version(\"2.1\", sha256=\"x\")".data])).map (fun st => st.specs) =
      some (["foo".data] ++ ["bar@2.1".data]) :=
  spec_c9_amended
    ["+++ b/var/spack/repos/builtin/packages/foo/package.py".data]
    ["+++ b/var/spack/repos/builtin/packages/bar/package.py".data,
     "+    version(\"2.1\", sha256=\"x\")".data]
    ("diff --git a/f b/f".data) (by decide) (by decide) (by decide)
    ["foo".data] ["bar@2.1".data] (by decide) (by decide)
